import Mathlib

/-!
Verification of the mandeljs rendering core (src/mandel.js), shallowly
embedded in Lean 4.  JavaScript numbers are modelled by exact rationals
(`ℚ`), escape counts and iteration budgets by `ℕ`, and the event-driven
viewport controller by an explicit state type with a step function over
an event datatype.  Rendering side effects (canvas drawing) carry no
state relevant to the claims and are omitted.
-/

namespace Mandel

/-- The function `map(s1, s2, t1, t2, s)` from src/mandel.js line 2: affine mapping of
`s` from the interval `[s1,s2]` to `[t1,t2]`.  The JavaScript function is
total (no degeneracy check); under the rational-arithmetic embedding the
Lean convention `x / 0 = 0` stands in for the non-finite value JavaScript
produces when `s1 = s2` — in both semantics the call returns a numeric
value and signals no error. -/
def map (s1 s2 t1 t2 s : ℚ) : ℚ :=
  t1 + (s - s1) / (s2 - s1) * (t2 - t1)

/-- Loop body of `mandel` (src/mandel.js lines 11-18), with `fuel` the
remaining iterations (`max - n`) and `(a, b)` the current components.
Returns the number of further iterations completed before escape. -/
def mandelAux (x y : ℚ) : ℕ → ℚ → ℚ → ℕ
  | 0, _, _ => 0
  | fuel + 1, a, b =>
    let a2 := a * a
    let b2 := b * b
    if a2 + b2 > 4 then 0
    else mandelAux x y fuel (a2 - b2 + x) (2 * a * b + y) + 1

/-- The function `mandel(x, y, max)` from src/mandel.js line 7: escape-time count with
the source's seeding `a = x`, `b = y` (not `0`). -/
def mandel (x y : ℚ) (max : ℕ) : ℕ :=
  mandelAux x y max x y

/-- The histogram built in src/mandel.js lines 24-25: `hist[i]` is the
number of entries of `ns` that are `< max` and equal to `i` (the code
filters `n < max`, then increments `hist[n]`). -/
def hist (ns : List ℕ) (max : ℕ) : ℕ → ℕ :=
  fun i => (ns.filter (fun n => n < max)).count i

/-- The cumulative sums of src/mandel.js lines 27-31:
`cumul[0] = hist[0]`, `cumul[i] = cumul[i-1] + hist[i]`. -/
def cumul (ns : List ℕ) (max : ℕ) : ℕ → ℕ
  | 0 => hist ns max 0
  | i + 1 => cumul ns max i + hist ns max (i + 1)

/-- The per-entry output of `normalize` (src/mandel.js line 34): entries
equal to `max` pass through; the rest become
`Math.ceil(cumul[n] / div)` with `div = cumul[max-1] / max`. -/
def normEntry (ns : List ℕ) (max : ℕ) (n : ℕ) : ℤ :=
  if n = max then (max : ℤ)
  else ⌈(cumul ns max n : ℚ) / ((cumul ns max (max - 1) : ℚ) / (max : ℚ))⌉

/-- The function `normalize(ns, max)` from src/mandel.js lines 23-35: histogram
equalization of the escape counts. -/
def normalize (ns : List ℕ) (max : ℕ) : List ℤ :=
  ns.map (normEntry ns max)

/-- The count sequence `nValues` built by `createMandelImage`
(src/mandel.js lines 50-61): the outer loop runs over rows `r < h`, the
inner loop over columns `c < w`, pushing
`mandel(map(0,w,x1,x2,c), map(0,h,y1,y2,r), max)` in order. -/
def nValues (w h : ℕ) (x1 x2 y1 y2 : ℚ) (max : ℕ) : List ℕ :=
  (List.range h).flatMap fun r : ℕ =>
    (List.range w).map fun c : ℕ =>
      mandel (map 0 (w : ℚ) x1 x2 (c : ℚ)) (map 0 (h : ℚ) y1 y2 (r : ℚ)) max

/-- The function `zoomOut(r)` from src/mandel.js lines 187-191: doubles the interval
around its midpoint. -/
def zoomOut (r : ℚ × ℚ) : ℚ × ℚ :=
  let d := r.2 - r.1
  let mid := (r.1 + r.2) / 2
  (mid - d, mid + d)

/-- Canvas width fixed in `onload` (src/mandel.js line 86). -/
def canvasW : ℚ := 1900

/-- Canvas height fixed in `onload` (src/mandel.js line 87). -/
def canvasH : ℚ := 870

/-- Aspect ratio `w / h` (src/mandel.js line 88). -/
def ratio : ℚ := canvasW / canvasH

/-- The mutable closure state of `onload`: the plane bounds `xRange` and
`yRange`, the selection-start corner `start` and the button flag
`mDown`.  The image data is a pure function of the bounds and is not
part of the controller state the claims concern. -/
structure ControllerState where
  xRange : ℚ × ℚ
  yRange : ℚ × ℚ
  start : ℚ × ℚ
  mDown : Bool
  deriving DecidableEq, Repr

/-- Initial state set in `onload` (src/mandel.js lines 98-105, 123). -/
def initState : ControllerState :=
  { xRange := (-2, 2)
    yRange := (-2 / ratio, 2 / ratio)
    start := (0, 0)
    mDown := false }

/-- Input events delivered to the registered listeners, carrying canvas
coordinates (the `getBoundingClientRect` offset subtraction of
`canvasPos` is the external input source's concern). -/
inductive Event where
  | mouseDown : ℚ × ℚ → Event
  | mouseMove : ℚ × ℚ → Event
  | mouseUp : ℚ × ℚ → Event
  | keyDown : String → Event
  deriving DecidableEq

/-- The helper `endPos` (src/mandel.js lines 134-138): uses only the x-coordinate of
the pointer and derives y from the gesture start to preserve the aspect
ratio. -/
def endPos (s : ControllerState) (x : ℚ) : ℚ × ℚ :=
  (x, s.start.2 + (x - s.start.1) / ratio)

/-- The helper `realPos` (src/mandel.js lines 141-147): inverts a canvas point into
the plane through `map`, reading the bounds stored in the state at call
time. -/
def realPos (s : ControllerState) (p : ℚ × ℚ) : ℚ × ℚ :=
  (map 0 canvasW s.xRange.1 s.xRange.2 p.1,
   map 0 canvasH s.yRange.1 s.yRange.2 p.2)

/-- One step of the controller: the four handlers of src/mandel.js
lines 150-201.  `mouseMove` only draws; `mouseUp` updates the bounds
when the selection is wider than 2 pixels and always clears `mDown`;
`keyDown` zooms out on key `z`. -/
def step (s : ControllerState) : Event → ControllerState
  | .mouseDown p => { s with start := p, mDown := true }
  | .mouseMove _ => s
  | .mouseUp p =>
    let e := endPos s p.1
    let dw := e.1 - s.start.1
    if dw > 2 then
      { s with
        xRange := ((realPos s s.start).1, (realPos s e).1)
        yRange := ((realPos s s.start).2, (realPos s e).2)
        mDown := false }
    else { s with mDown := false }
  | .keyDown k =>
    if k = "z" then
      { s with xRange := zoomOut s.xRange, yRange := zoomOut s.yRange }
    else s

/-- Processing a list of events in order. -/
def run (evs : List Event) (s : ControllerState) : ControllerState :=
  evs.foldl step s

end Mandel

namespace Mandel

/-- C4 (counterexample): the claim says `map` with `s1 = s2` signals
`DegenerateRangeError` rather than returning a numeric value; but `map`
is a total numeric function with no degeneracy check, and at the
concrete degenerate input `map(1,1,0,10,5)` it returns the numeric value
`0` (JavaScript likewise returns a number — a non-finite one — and
throws nothing). -/
theorem map_degenerate_returns_value : map 1 1 0 10 5 = 0 := by
  norm_num [map]

/-- C4 (amended): `map` performs no degenerate-range check and signals no
error; invoked with equal source endpoints `s1 = s2` it returns a
numeric value for every input — under the rational embedding (where
division by zero yields `0`) that value is `t1`. -/
theorem map_degenerate_total (s1 t1 t2 s : ℚ) : map s1 s1 t1 t2 s = t1 := by
  simp [map]

/-- Auxiliary bound: the loop completes at most `fuel` further
iterations. -/
theorem mandelAux_le (x y : ℚ) :
    ∀ (fuel : ℕ) (a b : ℚ), mandelAux x y fuel a b ≤ fuel := by
  intro fuel
  induction fuel with
  | zero => intro a b; simp [mandelAux]
  | succ n ih =>
    intro a b
    simp only [mandelAux]
    split
    · exact Nat.zero_le _
    · exact Nat.succ_le_succ (ih _ _)

/-- C6: `mandel` terminates on every input (it is a total function of a
decreasing fuel) and its result is an integer `n` with
`0 ≤ n ≤ maxIter`. -/
theorem mandel_le_max (x y : ℚ) (max : ℕ) :
    mandel x y max ≤ max :=
  mandelAux_le x y max x y

/-- C10: the evaluator seeds `(a,b) = (x,y)` and tests the escape radius
before the first update, so any point already outside the escape disk
(`x² + y² > 4`) gets count `0` whenever at least one iteration is
allowed. -/
theorem mandel_outside_disk (x y : ℚ) (max : ℕ)
    (h4 : x ^ 2 + y ^ 2 > 4) (hmax : 0 < max) :
    mandel x y max = 0 := by
  obtain ⟨k, rfl⟩ := Nat.exists_eq_succ_of_ne_zero (Nat.pos_iff_ne_zero.mp hmax)
  have hxy : x * x + y * y > 4 := by nlinarith
  simp [mandel, mandelAux, hxy]

/-- C10 (witness): `(3,0)` lies outside the escape disk and gets count
`0` with one iteration allowed. -/
theorem mandel_outside_disk_witness :
    (3 : ℚ) ^ 2 + (0 : ℚ) ^ 2 > 4 ∧ 0 < 1 ∧ mandel 3 0 1 = 0 :=
  ⟨by norm_num, Nat.one_pos, mandel_outside_disk 3 0 1 (by norm_num) Nat.one_pos⟩

/-- C8: `zoomOut` doubles an interval around its center: the output
width is `2 * (b - a)` and the midpoint is unchanged. -/
theorem zoomOut_width_mid (a b : ℚ) :
    (zoomOut (a, b)).2 - (zoomOut (a, b)).1 = 2 * (b - a) ∧
    ((zoomOut (a, b)).1 + (zoomOut (a, b)).2) / 2 = (a + b) / 2 := by
  constructor
  · simp [zoomOut]
    ring
  · simp [zoomOut]

/-- The cumulative sums are monotone in the bucket index. -/
theorem cumul_mono (ns : List ℕ) (max : ℕ) {i j : ℕ} (h : i ≤ j) :
    cumul ns max i ≤ cumul ns max j := by
  induction h with
  | refl => exact le_rfl
  | step _ ih =>
    exact ih.trans (Nat.le_add_right _ _)

/-- Each bucket is bounded by its cumulative sum. -/
theorem hist_le_cumul (ns : List ℕ) (max : ℕ) (i : ℕ) :
    hist ns max i ≤ cumul ns max i := by
  cases i with
  | zero => exact le_rfl
  | succ n => exact Nat.le_add_left _ _

/-- A value below `max` occurring in `ns` puts at least one entry in its
bucket. -/
theorem hist_pos (ns : List ℕ) (max a : ℕ) (ha : a ∈ ns) (ham : a < max) :
    0 < hist ns max a := by
  have hmem : a ∈ ns.filter (fun n => n < max) :=
    List.mem_filter.mpr ⟨ha, by simpa using ham⟩
  simpa [hist] using List.count_pos_iff.mpr hmem

/-- If some entry below `max` occurs, the final cumulative sum (the
denominator of `div`) is positive — the division by zero the spec warns
about cannot happen. -/
theorem cumul_last_pos (ns : List ℕ) (max a : ℕ) (ha : a ∈ ns) (ham : a < max) :
    0 < cumul ns max (max - 1) :=
  lt_of_lt_of_le (hist_pos ns max a ha ham)
    ((hist_le_cumul ns max a).trans (cumul_mono ns max (Nat.le_sub_one_of_lt ham)))

/-- Per-entry monotonicity of the equalization formula for escaping
counts. -/
theorem normEntry_mono (ns : List ℕ) (max a b : ℕ)
    (ha : a ∈ ns) (hab : a ≤ b) (hb : b < max) :
    normEntry ns max a ≤ normEntry ns max b := by
  have ham : a < max := lt_of_le_of_lt hab hb
  have hmax : 0 < max := lt_of_le_of_lt (Nat.zero_le a) ham
  rw [normEntry, normEntry, if_neg (Nat.ne_of_lt ham), if_neg (Nat.ne_of_lt hb)]
  apply Int.ceil_le_ceil
  have hM : (0 : ℚ) < (max : ℚ) := by exact_mod_cast hmax
  have hC : (0 : ℚ) < (cumul ns max (max - 1) : ℚ) := by
    exact_mod_cast cumul_last_pos ns max a ha ham
  have hdiv : (0 : ℚ) < (cumul ns max (max - 1) : ℚ) / (max : ℚ) := div_pos hC hM
  have hcc : (cumul ns max a : ℚ) ≤ (cumul ns max b : ℚ) := by
    exact_mod_cast cumul_mono ns max hab
  exact div_le_div_of_nonneg_right hcc hdiv.le

/-- C1: `normalize` is monotone on escaping counts: entries equal to
`a ≤ b < max` receive outputs in the same order. -/
theorem normalize_monotone (ns : List ℕ) (max a b i j : ℕ)
    (ha : a ∈ ns) (hb : b ∈ ns) (hab : a ≤ b) (hbmax : b < max)
    (hi : i < ns.length) (hj : j < ns.length)
    (hia : ns.get ⟨i, hi⟩ = a) (hjb : ns.get ⟨j, hj⟩ = b)
    (hi2 : i < (normalize ns max).length) (hj2 : j < (normalize ns max).length) :
    (normalize ns max).get ⟨i, hi2⟩ ≤ (normalize ns max).get ⟨j, hj2⟩ := by
  rw [List.get_eq_getElem] at hia hjb
  simp only [normalize, List.get_eq_getElem, List.getElem_map, hia, hjb]
  exact normEntry_mono ns max a b ha hab hbmax

/-- C1 (witness): in `[0, 1, 2]` with `max = 2`, the entry `0` gets
output `1` and the entry `1` gets output `2`, in order. -/
theorem normalize_monotone_witness :
    (normalize [0, 1, 2] 2).get ⟨0, by decide⟩ ≤ (normalize [0, 1, 2] 2).get ⟨1, by decide⟩ :=
  normalize_monotone [0, 1, 2] 2 0 1 0 1 (by decide) (by decide) (by decide)
    (by decide) (by decide) (by decide) (by decide) (by decide) (by decide) (by decide)

/-- C2: on a non-empty all-interior input (every entry equal to `max`)
`normalize` does not fail: it returns a sequence of the same length all
of whose entries equal `max` (every entry takes the `n === max` branch,
so the zero `div` is never used). -/
theorem normalize_all_interior (ns : List ℕ) (max : ℕ)
    (hne : ns ≠ []) (hall : ∀ n ∈ ns, n = max) :
    (normalize ns max).length = ns.length ∧
    ∀ m ∈ normalize ns max, m = (max : ℤ) := by
  refine ⟨by simp [normalize], ?_⟩
  intro m hm
  simp only [normalize, List.mem_map] at hm
  obtain ⟨n, hn, rfl⟩ := hm
  simp [normEntry, hall n hn]

/-- C2 (witness): `normalize [5,5,5] 5 = [5,5,5]`. -/
theorem normalize_all_interior_witness :
    ([(5 : ℕ), 5, 5] ≠ []) ∧
    (normalize [5, 5, 5] 5).length = 3 ∧
    ∀ m ∈ normalize [5, 5, 5] 5, m = (5 : ℤ) := by
  have h := normalize_all_interior [5, 5, 5] 5 (by decide) (by decide)
  exact ⟨by decide, h.1, h.2⟩

/-- C7: `normalize` preserves length and sends every entry equal to
`max` to `max` at the same position. -/
theorem normalize_length_interior_fixed (ns : List ℕ) (max : ℕ) :
    (normalize ns max).length = ns.length ∧
    ∀ (i : ℕ) (hi : i < ns.length) (hi2 : i < (normalize ns max).length),
      ns.get ⟨i, hi⟩ = max → (normalize ns max).get ⟨i, hi2⟩ = (max : ℤ) := by
  refine ⟨by simp [normalize], ?_⟩
  intro i hi hi2 hmax
  rw [List.get_eq_getElem] at hmax
  simp only [normalize, List.get_eq_getElem, List.getElem_map, hmax]
  simp [normEntry]

/-- C7 (witness): applying the position part at `ns = [3]`, `max = 3`. -/
theorem normalize_length_interior_fixed_witness :
    (normalize [3] 3).get ⟨0, by decide⟩ = (3 : ℤ) :=
  (normalize_length_interior_fixed [3] 3).2 0 (by decide) (by decide) (by decide)

/-- Flattening rows of uniform length `w` yields `l.length * w`
elements. -/
theorem length_flatMap_const {α β : Type} (f : α → List β) (w : ℕ)
    (hf : ∀ a, (f a).length = w) :
    ∀ l : List α, (l.flatMap f).length = l.length * w := by
  intro l
  induction l with
  | nil => simp
  | cons a l ih =>
    simp only [List.flatMap_cons, List.length_append, ih, hf, List.length_cons]
    ring

/-- Row-major indexing into a flattening of rows of uniform length `w`:
the element at `r * w + c` is element `c` of row `r`. -/
theorem get_flatMap_const {α β : Type} (f : α → List β) (w : ℕ)
    (hf : ∀ a, (f a).length = w) :
    ∀ (l : List α) (r c : ℕ) (hr : r < l.length) (hc : c < w)
      (hidx : r * w + c < (l.flatMap f).length),
      (l.flatMap f).get ⟨r * w + c, hidx⟩ =
        (f (l.get ⟨r, hr⟩)).get ⟨c, by rw [hf]; exact hc⟩ := by
  intro l
  induction l with
  | nil => intro r c hr; exact absurd hr (Nat.not_lt_zero r)
  | cons a l ih =>
    intro r c hr hc hidx
    cases r with
    | zero =>
      simp only [List.flatMap_cons, List.get_eq_getElem, Nat.zero_mul, Nat.zero_add]
      exact List.getElem_append_left (by rw [hf]; exact hc)
    | succ r =>
      have hlen : (f a).length ≤ (r + 1) * w + c := by
        rw [hf, Nat.succ_mul]
        omega
      have hr2 : r < l.length := Nat.lt_of_succ_lt_succ hr
      have hidx2 : r * w + c < (l.flatMap f).length := by
        rw [length_flatMap_const f w hf]
        calc r * w + c < r * w + w := Nat.add_lt_add_left hc _
        _ = (r + 1) * w := (Nat.succ_mul r w).symm
        _ ≤ l.length * w := Nat.mul_le_mul_right w hr2
      have heq : (r + 1) * w + c - (f a).length = r * w + c := by
        rw [hf, Nat.succ_mul]
        omega
      simp only [List.flatMap_cons, List.get_eq_getElem]
      rw [List.getElem_append_right hlen]
      have := ih r c hr2 hc hidx2
      simp only [List.get_eq_getElem] at this
      simp only [heq]
      exact this

/-- C5: `createMandelImage` performs one full grid pass in row-major
order: the count sequence has `w * h` entries and the entry at index
`r * w + c` is `mandel(map(0,w,x1,x2,c), map(0,h,y1,y2,r), max)`. -/
theorem createMandelImage_grid (w h : ℕ) (hw : 0 < w) (hh : 0 < h)
    (x1 x2 y1 y2 : ℚ) (max r c : ℕ) (hr : r < h) (hc : c < w)
    (hidx : r * w + c < (nValues w h x1 x2 y1 y2 max).length) :
    (nValues w h x1 x2 y1 y2 max).length = w * h ∧
    (nValues w h x1 x2 y1 y2 max).get ⟨r * w + c, hidx⟩ =
      mandel (map 0 (w : ℚ) x1 x2 (c : ℚ)) (map 0 (h : ℚ) y1 y2 (r : ℚ)) max := by
  have hrow : ∀ rr : ℕ,
      ((List.range w).map fun cc : ℕ =>
        mandel (map 0 (w : ℚ) x1 x2 (cc : ℚ)) (map 0 (h : ℚ) y1 y2 (rr : ℚ)) max).length = w := by
    intro rr
    rw [List.length_map, List.length_range]
  have hdef : nValues w h x1 x2 y1 y2 max =
      (List.range h).flatMap fun rr : ℕ =>
        (List.range w).map fun cc : ℕ =>
          mandel (map 0 (w : ℚ) x1 x2 (cc : ℚ)) (map 0 (h : ℚ) y1 y2 (rr : ℚ)) max := rfl
  constructor
  · rw [hdef, length_flatMap_const _ w hrow, List.length_range, Nat.mul_comm]
  · exact (get_flatMap_const _ w hrow (List.range h) r c (by simpa using hr) hc hidx).trans
      (by simp)

/-- C5 (witness): the 2×2 grid over `[-2,2] × [-2,2]` with `max = 2`,
checked at row 1, column 0. -/
theorem createMandelImage_grid_witness :
    (nValues 2 2 (-2) 2 (-2) 2 2).length = 2 * 2 ∧
    (nValues 2 2 (-2) 2 (-2) 2 2).get ⟨1 * 2 + 0, by decide⟩ =
      mandel (map 0 (2 : ℚ) (-2) 2 (0 : ℚ)) (map 0 (2 : ℚ) (-2) 2 (1 : ℚ)) 2 :=
  createMandelImage_grid 2 2 (by decide) (by decide) (-2) 2 (-2) 2 2 1 0
    (by decide) (by decide) (by decide)

/-- Both bounds intervals of a controller state have nonzero width. -/
def nonzeroWidth (s : ControllerState) : Prop :=
  s.xRange.1 ≠ s.xRange.2 ∧ s.yRange.1 ≠ s.yRange.2

/-- With a non-degenerate source interval and a non-degenerate target
interval, `map` sends distinct inputs to distinct outputs. -/
theorem map_ne_of_ne (s1 s2 t1 t2 : ℚ) (hs : s2 - s1 ≠ 0) (ht : t2 - t1 ≠ 0)
    {a b : ℚ} (hab : a ≠ b) : map s1 s2 t1 t2 a ≠ map s1 s2 t1 t2 b := by
  rw [map, map]
  intro heq
  apply hab
  have h1 : (a - s1) / (s2 - s1) * (t2 - t1) = (b - s1) / (s2 - s1) * (t2 - t1) := by
    linarith
  have h2 : (a - s1) / (s2 - s1) = (b - s1) / (s2 - s1) := mul_right_cancel₀ ht h1
  have h3 : a - s1 = b - s1 := by
    field_simp at h2
    linarith
  linarith

/-- Every single handler step preserves nonzero-width bounds. -/
theorem step_preserves_nonzeroWidth (s : ControllerState) (e : Event)
    (h : nonzeroWidth s) : nonzeroWidth (step s e) := by
  have hW : canvasW - 0 ≠ 0 := by norm_num [canvasW]
  have hH : canvasH - 0 ≠ 0 := by norm_num [canvasH]
  have hratio : ratio ≠ 0 := by norm_num [ratio, canvasW, canvasH]
  cases e with
  | mouseDown p => exact h
  | mouseMove p => exact h
  | mouseUp p =>
    simp only [step]
    split
    · rename_i hgt
      constructor
      · exact map_ne_of_ne 0 canvasW s.xRange.1 s.xRange.2 hW
          (sub_ne_zero.mpr (Ne.symm h.1))
          (by intro heq; rw [heq] at hgt; simp [endPos] at hgt; linarith)
      · refine map_ne_of_ne 0 canvasH s.yRange.1 s.yRange.2 hH
          (sub_ne_zero.mpr (Ne.symm h.2)) ?_
        have hd : (p.1 - s.start.1) / ratio ≠ 0 := by
          apply div_ne_zero ?_ hratio

          simp only [endPos] at hgt
          intro heq
          rw [heq] at hgt
          norm_num at hgt
        simp only [endPos]
        intro heq
        apply hd
        linarith
    · exact h
  | keyDown k =>
    simp only [step]
    split
    · constructor
      · simp only [zoomOut]
        intro heq
        apply h.1
        have : s.xRange.2 - s.xRange.1 = 0 := by linarith
        linarith
      · simp only [zoomOut]
        intro heq
        apply h.2
        have : s.yRange.2 - s.yRange.1 = 0 := by linarith
        linarith
    · exact h

/-- Processing any event list preserves nonzero-width bounds. -/
theorem run_preserves_nonzeroWidth (evs : List Event) :
    ∀ s : ControllerState, nonzeroWidth s → nonzeroWidth (run evs s) := by
  induction evs with
  | nil => intro s h; exact h
  | cons e evs ih => intro s h; exact ih (step s e) (step_preserves_nonzeroWidth s e h)

/-- C9: starting from the initial bounds (`[-2,2]` on x and the
aspect-corrected y interval), every sequence of handler steps
(pointer down/move/up, key presses) leaves both plane ranges with
nonzero width. -/
theorem controller_nonzeroWidth_invariant (evs : List Event) :
    nonzeroWidth (run evs initState) :=
  run_preserves_nonzeroWidth evs initState
    (by constructor <;> norm_num [initState, ratio, canvasW, canvasH])

/-- Events that can occur inside a selection gesture without ending or
restarting it: pointer moves and key presses. -/
def gestureNeutral : Event → Bool
  | .mouseMove _ => true
  | .keyDown _ => true
  | _ => false

/-- Gesture-neutral events never touch the recorded selection start. -/
theorem run_neutral_start (es : List Event) :
    ∀ s : ControllerState, (∀ e ∈ es, gestureNeutral e = true) →
      (run es s).start = s.start := by
  induction es with
  | nil => intro s _; rfl
  | cons e es ih =>
    intro s hes
    have he := hes e (List.mem_cons_self e es)
    have hrest : ∀ e2 ∈ es, gestureNeutral e2 = true :=
      fun e2 h2 => hes e2 (List.mem_cons_of_mem _ h2)
    have hstep : (step s e).start = s.start := by
      cases e with
      | mouseDown p => simp [gestureNeutral] at he
      | mouseMove p => rfl
      | mouseUp p => simp [gestureNeutral] at he
      | keyDown k =>
        simp only [step]
        split
        · rfl
        · rfl
    calc (run (e :: es) s).start = (run es (step s e)).start := rfl
    _ = (step s e).start := ih (step s e) hrest
    _ = s.start := hstep

/-- C3 (amended): for a gesture pointerDown at `p`, gesture-neutral
intervening events (moves, key presses — in particular a `z` zoom-out
that mutates the bounds), then pointerUp at `q` with selection width
`> 2`, the new plane bounds are the two `map` inversions of the
selection corners computed with the bounds current at pointerUp (i.e.
after the intervening mutation), not the bounds at gesture start. -/
theorem mouseUp_uses_current_bounds (s0 : ControllerState) (p q : ℚ × ℚ)
    (es : List Event) (hes : ∀ e ∈ es, gestureNeutral e = true)
    (hwidth : q.1 - p.1 > 2) :
    (step (run es (step s0 (.mouseDown p))) (.mouseUp q)).xRange =
      ((realPos (run es (step s0 (.mouseDown p))) p).1,
       (realPos (run es (step s0 (.mouseDown p)))
         (endPos (run es (step s0 (.mouseDown p))) q.1)).1) ∧
    (step (run es (step s0 (.mouseDown p))) (.mouseUp q)).yRange =
      ((realPos (run es (step s0 (.mouseDown p))) p).2,
       (realPos (run es (step s0 (.mouseDown p)))
         (endPos (run es (step s0 (.mouseDown p))) q.1)).2) := by
  have hstart : (run es (step s0 (.mouseDown p))).start = p := by
    rw [run_neutral_start es _ hes]
    rfl
  set s1 := run es (step s0 (.mouseDown p)) with hs1
  have hcond : (endPos s1 q.1).1 - s1.start.1 > 2 := by
    simpa [endPos, hstart] using hwidth
  simp only [step]
  rw [if_pos hcond]
  simp [hstart]

/-- C3 (witness for the amended claim): pointerDown at `(10,10)`, a `z`
zoom-out, pointerUp at `(50,10)` — the selection is 40 pixels wide and
the new bounds are the inversions under the zoomed bounds. -/
theorem mouseUp_uses_current_bounds_witness :
    (step (run [Event.keyDown "z"] (step initState (.mouseDown (10, 10))))
        (.mouseUp (50, 10))).xRange =
      ((realPos (run [Event.keyDown "z"] (step initState (.mouseDown (10, 10)))) (10, 10)).1,
       (realPos (run [Event.keyDown "z"] (step initState (.mouseDown (10, 10))))
         (endPos (run [Event.keyDown "z"] (step initState (.mouseDown (10, 10)))) 50)).1) ∧
    (step (run [Event.keyDown "z"] (step initState (.mouseDown (10, 10))))
        (.mouseUp (50, 10))).yRange =
      ((realPos (run [Event.keyDown "z"] (step initState (.mouseDown (10, 10)))) (10, 10)).2,
       (realPos (run [Event.keyDown "z"] (step initState (.mouseDown (10, 10))))
         (endPos (run [Event.keyDown "z"] (step initState (.mouseDown (10, 10)))) 50)).2) :=
  mouseUp_uses_current_bounds initState (10, 10) (50, 10) [Event.keyDown "z"]
    (by decide) (by norm_num)

/-- A `z` key press replaces both ranges by their zoom-outs. -/
theorem step_keyDown_z (s : ControllerState) :
    step s (.keyDown "z") =
      { s with xRange := zoomOut s.xRange, yRange := zoomOut s.yRange } := by
  simp [step]

/-- A pointer-up whose derived selection is wider than 2 pixels replaces
the bounds by the inversions of the selection corners under the bounds
stored in the state at that moment. -/
theorem step_mouseUp_wide (s : ControllerState) (p : ℚ × ℚ)
    (h : p.1 - s.start.1 > 2) :
    step s (.mouseUp p) =
      { s with
        xRange := ((realPos s s.start).1, (realPos s (endPos s p.1)).1)
        yRange := ((realPos s s.start).2, (realPos s (endPos s p.1)).2)
        mDown := false } := by
  simp only [step]
  rw [if_pos (by simpa [endPos] using h)]

/-- C3 (counterexample to the claim as stated): after pointerDown at
`(10,10)`, key `z` (which replaces the bounds `[-2,2]` by `[-4,4]`),
and pointerUp at `(50,10)`, the resulting x bounds are the inversions
of the corners under the zoomed bounds `[-4,4]` — and are NOT the
inversions under the bounds `[-2,2]` that were in effect at gesture
start, contradicting the claimed use of gesture-start bounds. -/
theorem mouseUp_stale_bounds_counterexample :
    (run [Event.mouseDown (10, 10), Event.keyDown "z", Event.mouseUp (50, 10)]
        initState).xRange =
      (map 0 canvasW (-4) 4 10, map 0 canvasW (-4) 4 50) ∧
    (run [Event.mouseDown (10, 10), Event.keyDown "z", Event.mouseUp (50, 10)]
        initState).xRange ≠
      (map 0 canvasW (-2) 2 10, map 0 canvasW (-2) 2 50) := by
  have hrun : run [Event.mouseDown (10, 10), Event.keyDown "z", Event.mouseUp (50, 10)]
        initState =
      step (step (step initState (.mouseDown (10, 10))) (.keyDown "z"))
        (.mouseUp (50, 10)) := rfl
  rw [hrun, step_keyDown_z,
    step_mouseUp_wide _ _ (by norm_num [step, initState])]
  constructor
  · norm_num [step, initState, realPos, endPos, map, zoomOut, ratio, canvasW, canvasH]
  · norm_num [step, initState, realPos, endPos, map, zoomOut, ratio, canvasW, canvasH]

end Mandel
